import Mathlib

/-!
Verification of the e3nn compilation-mode dispatch (`e3nn.util.jit`) and of the
equivariance property of the library's layers, against a shallow embedding.

The repository material consists of the TorchScript guide (`docs/guide/jit.ipynb`)
and the `o3` API index.  The implementation of `e3nn.util.jit` itself is not part
of the excerpted sources, so the dispatch system is modelled from the spec's
description: a recursive tree-walk over a module hierarchy that classifies each
node by an attached compile directive (`@compile_mode`), compiles leaves-first,
substitutes compiled submodules back into parents, traces with example inputs
generated from `irreps_in` or `_make_tracing_inputs`, and — per the guide's
"Testing" section — checks compiled behaviour in the separate test helper
`assert_auto_jitable`.

Tensor values are modelled with exact integer fractions (the library computes
with floating-point numbers); the square root used by `Norm` is exact on the
perfect squares that arise in this development.  Tracing follows the guide's
description of `torch.jit.trace`: it runs the module on an example input and
records the operations taken, so data-dependent branches are frozen to the arm
taken on the example.  Calls to already-compiled (scripted or traced)
submodules remain calls, which is why a scripted submodule keeps its
data-dependent control flow inside a traced parent; plain, uncompiled
submodules are traced through — their Python is inlined, each call site
specialised at the value reaching it — which is the guide's reason for marking
control-flow modules with a `@compile_mode('script')` directive.
-/

/-- Modelled from the spec: a tensor entry.  The library uses floating-point
numbers; entries are modelled as exact fractions `num/den` (kept unreduced,
with positive denominators by construction). -/
structure Q where
  num : Int
  den : Int
deriving DecidableEq

instance (n : Nat) : OfNat Q n := ⟨⟨n, 1⟩⟩

/-- Addition of fraction values. -/
def qAdd (a b : Q) : Q := ⟨a.num * b.den + b.num * a.den, a.den * b.den⟩

/-- Multiplication of fraction values. -/
def qMul (a b : Q) : Q := ⟨a.num * b.num, a.den * b.den⟩

/-- Strict comparison of fraction values (denominators positive by construction). -/
def qLtB (a b : Q) : Bool := decide (a.num * b.den < b.num * a.den)

/-- Fuel-bounded integer square root: the largest `r ≤ fuel` with `r * r ≤ n`. -/
def sqrtFuel : Nat → Nat → Nat
  | 0, _ => 0
  | f + 1, n => if (f + 1) * (f + 1) ≤ n then f + 1 else sqrtFuel f n

/-- Modelled from the spec: the square root used by `Norm`.  The library computes
a floating-point square root; this model is exact on fractions whose numerator
and denominator are perfect squares, which covers every value the claims use. -/
def qSqrt (a : Q) : Q :=
  ⟨Int.ofNat (sqrtFuel a.num.toNat a.num.toNat), Int.ofNat (sqrtFuel a.den.toNat a.den.toNat)⟩

/-- The rational number denoted by a fraction value. -/
def qDenote (a : Q) : ℚ := (a.num : ℚ) / (a.den : ℚ)

/-- Modelled from the spec: a runtime value passed through a module's `forward`:
a 2-dimensional tensor (list of rows), an integer tensor (`LongTensor`), a scalar,
or a pair of arguments. -/
inductive TValue where
  | t2 (rows : List (List Q))
  | ints (l : List Int)
  | scalar (q : Q)
  | pair (a b : TValue)
deriving DecidableEq

/-- Modelled from the spec: the `@compile_mode` directive attached to a module
class, directing the wrapper to script or to trace it. -/
inductive CompileMode where
  | script
  | trace
deriving DecidableEq

/-- Modelled from the spec: the syntactic shape of a module's `forward`.  `op`
is a branch-free tensor computation, `callSub i` invokes the `i`-th submodule,
`seq` is sequential composition, and `branch` is data-dependent control flow
(the kind tracing cannot capture).  All data-dependent control flow of a body
that may be traced is expressed with `branch`. -/
inductive Body where
  | op (f : TValue → Option TValue)
  | callSub (i : Nat)
  | seq (a b : Body)
  | branch (c : TValue → Bool) (t e : Body)

/-- Modelled from the spec: a module tree node.  `mode` is the attached
`@compile_mode` directive (none = left alone), `irrepsIn` the dimension of its
`irreps_in` when it has one, `mti` its `_make_tracing_inputs` method when it
defines one (a function from the suggested count `n` to a list of dicts mapping
method names to argument tuples), `subs` its submodules and `body` its forward. -/
inductive NNModule where
  | mk (mode : Option CompileMode) (irrepsIn : Option Nat)
      (mti : Option (Nat → List (List (String × TValue))))
      (subs : List NNModule) (body : Body)

/-- The `@compile_mode` directive attached to a module. -/
def NNModule.modeOf : NNModule → Option CompileMode
  | .mk m _ _ _ _ => m

/-- The dimension of the module's `irreps_in`, when it has one. -/
def NNModule.irrepsInOf : NNModule → Option Nat
  | .mk _ i _ _ _ => i

/-- The module's `_make_tracing_inputs` method, when it defines one. -/
def NNModule.mtiOf : NNModule → Option (Nat → List (List (String × TValue)))
  | .mk _ _ t _ _ => t

/-- The module's submodules. -/
def NNModule.subsOf : NNModule → List NNModule
  | .mk _ _ _ s _ => s

/-- The module's forward body. -/
def NNModule.bodyOf : NNModule → Body
  | .mk _ _ _ _ b => b

/-- Evaluation of a body against an environment of submodule forwards. -/
def Body.evalB (env : List (TValue → Option TValue)) : Body → TValue → Option TValue
  | .op f, x => f x
  | .callSub i, x =>
    match env[i]? with
    | some f => f x
    | none => none
  | .seq a b, x =>
    match Body.evalB env a x with
    | some y => Body.evalB env b y
    | none => none
  | .branch c t e, x => if c x then Body.evalB env t x else Body.evalB env e x

mutual
/-- The original (eager) semantics of a module: its forward evaluated with the
original forwards of its submodules. -/
def NNModule.evalM : NNModule → TValue → Option TValue
  | .mk _ _ _ subs body, x => Body.evalB (NNModule.evalList subs) body x
/-- The original forwards of a list of submodules. -/
def NNModule.evalList : List NNModule → List (TValue → Option TValue)
  | [] => []
  | m :: ms => (fun x => NNModule.evalM m x) :: NNModule.evalList ms
end

/-- Modelled from the spec: the result of the wrapper on one module tree node:
a `RecursiveScriptModule`, a `TopLevelTracedModule` (its body specialised along
the traced path), or the original module left alone, in every case with its
submodules replaced by their own compiled forms. -/
inductive CModule where
  | scripted (subs : List CModule) (body : Body)
  | traced (subs : List CModule) (body : Body)
  | plain (subs : List CModule) (body : Body)

/-- How a compiled node was produced (the TorchScript class of the result):
`some script` for a scripted node, `some trace` for a traced node, `none` for a
module left alone. -/
def CModule.tag : CModule → Option CompileMode
  | .scripted _ _ => some .script
  | .traced _ _ => some .trace
  | .plain _ _ => none

/-- The submodules of a compiled node. -/
def CModule.subsOf : CModule → List CModule
  | .scripted s _ => s
  | .traced s _ => s
  | .plain s _ => s

/-- The body of a compiled node. -/
def CModule.bodyOf : CModule → Body
  | .scripted _ b => b
  | .traced _ b => b
  | .plain _ b => b

mutual
/-- The runtime semantics of a compiled module.  Scripting preserves the body;
a traced node carries the body specialised during tracing.  In every case calls
go to the compiled submodules. -/
def CModule.forward : CModule → TValue → Option TValue
  | .scripted subs body, x => Body.evalB (CModule.forwardList subs) body x
  | .traced subs body, x => Body.evalB (CModule.forwardList subs) body x
  | .plain subs body, x => Body.evalB (CModule.forwardList subs) body x
/-- The forwards of a list of compiled submodules. -/
def CModule.forwardList : List CModule → List (TValue → Option TValue)
  | [] => []
  | c :: cs => (fun x => CModule.forward c x) :: CModule.forwardList cs
end

/-- The number of constructors of a body. -/
def bsize : Body → Nat
  | .op _ => 1
  | .callSub _ => 1
  | .seq a b => 1 + bsize a + bsize b
  | .branch _ t e => 1 + bsize t + bsize e

mutual
/-- The number of constructors of a compiled module tree. -/
def cmsize : CModule → Nat
  | .scripted subs body => 1 + cmsizeList subs + bsize body
  | .traced subs body => 1 + cmsizeList subs + bsize body
  | .plain subs body => 1 + cmsizeList subs + bsize body
/-- The total size of a list of compiled modules. -/
def cmsizeList : List CModule → Nat
  | [] => 0
  | c :: cs => cmsize c + cmsizeList cs
end

/-- Modelled from the spec: tracing a body on an example input against the
already-compiled submodules.  The example is run through the body; operations
are recorded, every data-dependent `branch` is replaced by the arm actually
taken on the example (the guide: tracing allows "complex Python control flow if
that control flow does not depend on the data itself"), and submodule calls are
handled by kind — a call to a compiled (scripted or traced) submodule is kept
as a call, so its own control flow stays live at run time, while a call to a
plain, uncompiled submodule is traced through, as `torch.jit.trace` inlines
unscripted Python: its body is recursively specialised at the value reaching
this call site and recorded as an inlined operation over that submodule's own
(compiled) children.  Fails when the example cannot be evaluated. -/
def traceThroughF : Nat → List CModule → Body → TValue → Option (Body × TValue)
  | 0, _, _, _ => none
  | _ + 1, _, .op f, x =>
    match f x with
    | some y => some (.op f, y)
    | none => none
  | fuel + 1, cs, .callSub i, x =>
    match cs[i]? with
    | some (.plain subs2 body2) =>
      match traceThroughF fuel subs2 body2 x with
      | some (rb, y) =>
        some (.op (fun v => Body.evalB (CModule.forwardList subs2) rb v), y)
      | none => none
    | some (.scripted subs2 body2) =>
      match CModule.forward (.scripted subs2 body2) x with
      | some y => some (.callSub i, y)
      | none => none
    | some (.traced subs2 body2) =>
      match CModule.forward (.traced subs2 body2) x with
      | some y => some (.callSub i, y)
      | none => none
    | none => none
  | fuel + 1, cs, .seq a b, x =>
    match traceThroughF fuel cs a x with
    | some (a2, y) =>
      match traceThroughF fuel cs b y with
      | some (b2, z) => some (.seq a2 b2, z)
      | none => none
    | none => none
  | fuel + 1, cs, .branch c t e, x =>
    if c x then traceThroughF fuel cs t x else traceThroughF fuel cs e x

/-- Tracing a body against the already-compiled submodules (see
`traceThroughF`).  The fuel bounds the recursion depth of inlining; every
recursive step strictly decreases the combined size of the submodule list and
the body, so the combined size is a sufficient bound and the fuel never runs
out on this argument. -/
def traceThrough (cs : List CModule) (b : Body) (x : TValue) : Option (Body × TValue) :=
  traceThroughF (cmsizeList cs + bsize b) cs b x

/-- One tracing example: a dict mapping method names to argument tuples. -/
abbrev TInput := List (String × TValue)

/-- An all-zero tensor with `b` rows of length `d`. -/
def zerosT (b d : Nat) : TValue := .t2 (List.replicate b (List.replicate d 0))

/-- Modelled from the spec: automatic generation of tracing examples from a
module's `irreps_in` (the guide: "these example inputs can be generated
automatically based on the `irreps_in` of the module").  The library draws
random tensors of shape `(batch, irreps_in.dim)`; the model uses a fixed
representative of that shape.  Without an `irreps_in` nothing can be generated. -/
def autoFromIrreps : Option Nat → Nat → List TInput
  | some d, n => List.replicate (max n 1) [("forward", zerosT 2 d)]
  | none, _ => []

/-- Modelled from the spec: the tracing examples for a module.  A module that
defines `_make_tracing_inputs` is asked for `n` examples; otherwise examples are
generated automatically from its `irreps_in`. -/
def tracingExamples (m : NNModule) (n : Nat) : List TInput :=
  match m.mtiOf with
  | some f => f n
  | none => autoFromIrreps m.irrepsInOf n

/-- Modelled from the spec: the example input the compiler actually traces
`forward` with.  It asks for two examples, but uses only the first returned
dict; the only requirement on the generator is that at least one example with a
`forward` entry is returned. -/
def selectTracingInput (m : NNModule) : Option TValue :=
  match (tracingExamples m 2).head? with
  | some d => List.lookup "forward" d
  | none => none

/-- A position in the module tree: the list of submodule indices from the root. -/
abbrev JPath := List Nat

mutual
/-- Modelled from the spec: the recursive compilation-mode dispatch.  It first
recurses through the submodules, compiling each in accordance with its own
`@compile_mode` directive, then builds this node according to `mode`: scripted,
traced on an example input (the caller-supplied one at the top level, otherwise
the module's own generated example), or left alone.  The second component
records, in completion order, the tree positions at which a script or trace
compilation was performed (submodules first, this node last). -/
def compileWith (pfx : JPath) (mode : Option CompileMode) (exO : Option TValue) :
    NNModule → Option (CModule × List JPath)
  | .mk md ir mt subs body =>
    match compileSubs pfx 0 subs with
    | none => none
    | some (csubs, slog) =>
      match mode with
      | none => some (.plain csubs body, slog)
      | some .script => some (.scripted csubs body, slog ++ [pfx])
      | some .trace =>
        match (match exO with
               | some e => some e
               | none => selectTracingInput (.mk md ir mt subs body)) with
        | none => none
        | some ex =>
          match traceThrough csubs body ex with
          | some (body2, _) => some (.traced csubs body2, slog ++ [pfx])
          | none => none
/-- Compile a list of submodules, each in accordance with its own directive,
`i` being the index of the first one below the parent at `pfx`. -/
def compileSubs (pfx : JPath) (i : Nat) :
    List NNModule → Option (List CModule × List JPath)
  | [] => some ([], [])
  | s :: ss =>
    match compileWith (pfx ++ [i]) s.modeOf none s with
    | none => none
    | some (c, l1) =>
      match compileSubs pfx (i + 1) ss with
      | none => none
      | some (cs, l2) => some (c :: cs, l1 ++ l2)
end

/-- Modelled from the spec: `e3nn.util.jit.script` — compile the submodules per
their directives, then script the top-level module regardless of its own
directive. -/
def script (m : NNModule) : Option (CModule × List JPath) :=
  compileWith [] (some .script) none m

/-- Modelled from the spec: `e3nn.util.jit.trace` — compile the submodules per
their directives, then trace the top-level module on the caller-supplied
example inputs regardless of its own directive. -/
def trace (m : NNModule) (ex : TValue) : Option (CModule × List JPath) :=
  compileWith [] (some .trace) (some ex) m

/-- Modelled from the spec: `e3nn.util.jit.compile` — compile the module in
accordance with its own `@compile_mode` directive, without overriding it. -/
def compile (m : NNModule) : Option (CModule × List JPath) :=
  compileWith [] m.modeOf none m

/-- The node of the original module tree at a position. -/
def NNModule.atP : JPath → NNModule → Option NNModule
  | [], m => some m
  | i :: p, m =>
    match m.subsOf[i]? with
    | some s => NNModule.atP p s
    | none => none

/-- The node of a compiled module tree at a position. -/
def CModule.atP : JPath → CModule → Option CModule
  | [], c => some c
  | i :: p, c =>
    match c.subsOf[i]? with
    | some s => CModule.atP p s
    | none => none

/-- Whether a body is free of data-dependent branches. -/
def branchFree : Body → Bool
  | .op _ => true
  | .callSub _ => true
  | .seq a b => branchFree a && branchFree b
  | .branch _ _ _ => false

mutual
/-- Whether every node reachable from here through plain (unannotated) modules
has a branch-free body.  Tracing a parent inlines exactly these nodes, so this
is the condition under which tracing through them loses no behaviour. -/
def plainOk : NNModule → Bool
  | .mk mode _ _ subs body =>
    match mode with
    | none => branchFree body && plainOkList subs
    | some _ => true
/-- `plainOk` for each module of a list. -/
def plainOkList : List NNModule → Bool
  | [] => true
  | s :: ss => plainOk s && plainOkList ss
end

mutual
/-- The condition under which compilation is behaviour-preserving in this model:
every node that ends up traced (because the entry point forces it or because its
directive says so) has a branch-free body, and so does every submodule the
tracer can inline — those reachable from the traced node through plain,
unannotated modules — so that no data-dependent branch is specialised to the
example's control path. -/
def okCompile : Option CompileMode → NNModule → Bool
  | mode, .mk _ _ _ subs body =>
    (match mode with
     | some .trace => branchFree body && plainOkList subs
     | _ => true) && okList subs
/-- `okCompile` for each submodule, against its own directive. -/
def okList : List NNModule → Bool
  | [] => true
  | s :: ss => okCompile s.modeOf s && okList ss
end

mutual
/-- `plainOk` on the compiled side: every node reachable through plain compiled
nodes has a branch-free body. -/
def cPlainOk : CModule → Bool
  | .plain subs body => branchFree body && cPlainOkList subs
  | .scripted _ _ => true
  | .traced _ _ => true
/-- `cPlainOk` for each module of a list. -/
def cPlainOkList : List CModule → Bool
  | [] => true
  | c :: cs => cPlainOk c && cPlainOkList cs
end

/-- Changes `x.shape[-1]` of every 2-dimensional tensor inside a value, the
shape alteration `assert_auto_jitable` uses for its strict-shapes check. -/
def alterLast : TValue → TValue
  | .t2 rows => .t2 (rows.map (fun r => r ++ [0]))
  | .ints l => .ints l
  | .scalar q => .scalar q
  | .pair a b => .pair (alterLast a) (alterLast b)

/-- Modelled from the spec: whether the traced module rejects (fails on) the
tracing input with its last dimension changed — the strict-shapes probe of
`assert_auto_jitable`, which assumes the final dimension is a network
architecture constant. -/
def rejectsAltered (m : NNModule) : Bool :=
  match selectTracingInput m with
  | some ex =>
    match trace m ex with
    | some (c, _) => (CModule.forward c (alterLast ex)).isNone
    | none => false
  | none => false

/-- Modelled from the spec: the test helper `e3nn.util.test.assert_auto_jitable`.
It traces the module on its generated example input, checks that the compiled
module and the original agree there, and, when `strict_shapes` is set, further
checks that the traced module rejects the example with `x.shape[-1]` changed. -/
def assert_auto_jitable (m : NNModule) (strict_shapes : Bool) : Bool :=
  match selectTracingInput m with
  | some ex =>
    match trace m ex with
    | some (c, _) =>
      decide (CModule.forward c ex = NNModule.evalM m ex) &&
      (!strict_shapes || rejectsAltered m)
    | none => false
  | none => false

/-! ### The concrete modules of the TorchScript guide -/

/-- The identity tensor operation. -/
def idOp : TValue → Option TValue := fun v => some v

/-- Splits a row into the consecutive blocks of an irreps, failing when the row
length is not exactly the irreps dimension. -/
def splitBlocks : List Nat → List Q → Option (List (List Q))
  | [], [] => some []
  | [], _ :: _ => none
  | d :: ds, xs =>
    if d ≤ xs.length then
      match splitBlocks ds (xs.drop d) with
      | some bs => some (xs.take d :: bs)
      | none => none
    else none

/-- Sum of squares of a block. -/
def sumSqL (v : List Q) : Q := v.foldr (fun q acc => qAdd (qMul q q) acc) 0

/-- Sum of the entries of a row. -/
def sumL (v : List Q) : Q := v.foldr qAdd 0

/-- The per-irrep norms of one row: the Euclidean norm of each block. -/
def rowNorms (dims : List Nat) (row : List Q) : Option (List Q) :=
  match splitBlocks dims row with
  | some bs => some (bs.map (fun b => qSqrt (sumSqL b)))
  | none => none

/-- Modelled from the spec: the forward of `o3.Norm(irreps_in)` — row-wise
per-irrep norms of a batched tensor, rejecting rows whose length is not the
irreps dimension. -/
def normOp (dims : List Nat) : TValue → Option TValue
  | .t2 rows =>
    match rows.mapM (rowNorms dims) with
    | some ns => some (.t2 ns)
    | none => none
  | _ => none

/-- Whether some entry of a row exceeds a threshold. -/
def anyHot (t : Q) (row : List Q) : Bool := row.any (fun v => qLtB t v)

/-- Whether some entry of a batched tensor exceeds a threshold
(`torch.any(norm > t)`). -/
def anyOver (t : Q) : TValue → Bool
  | .t2 rows => rows.any (fun r => anyHot t r)
  | _ => false

/-- The guide's scripted loop: `for row in norm: if torch.any(row > t): return
row`, falling through to `return norm`. -/
def firstHot (t : Q) : TValue → Option TValue
  | .t2 rows =>
    match rows.find? (fun r => anyHot t r) with
    | some r => some (.t2 [r])
    | none => some (.t2 rows)
  | _ => none

/-- Applies a scalar function to every entry of a batched tensor. -/
def mapRows (g : Q → Q) : TValue → Option TValue
  | .t2 rows => some (.t2 (rows.map (fun r => r.map g)))
  | _ => none

/-- Elementwise `+ 3.` (the forward of the guide's `AnotherModule` after its
submodule call). -/
def addThreeOp : TValue → Option TValue := mapRows (fun v => qAdd v 3)

/-- Elementwise `* 0.5` (the `else` arm of the guide's first `MyModule`). -/
def scaleHalfOp : TValue → Option TValue := mapRows (fun v => qMul v ⟨1, 2⟩)

/-- The block dimensions of the guide's irreps `2x0e + 1x1o`: two scalars and
one l=1 block. -/
def irrepsDims : List Nat := [1, 1, 3]

/-- The dimension of `2x0e + 1x1o`. -/
def irrepsDim : Nat := 5

/-- The guide's `Norm(irreps)` instance: marked `@compile_mode('trace')`, with
the irreps as its `irreps_in`. -/
def normMod : NNModule := .mk (some .trace) (some irrepsDim) none [] (.op (normOp irrepsDims))

/-- The guide's first `MyModule` (unannotated): `norm = self.norm(x); if
torch.any(norm > 7.): return norm else: return norm * 0.5`. -/
def myModule1 : NNModule :=
  .mk none (some irrepsDim) none [normMod]
    (.seq (.callSub 0) (.branch (anyOver 7) (.op idOp) (.op scaleHalfOp)))

/-- The guide's second `MyModule`, marked `@compile_mode('script')`: the row
loop returning the first row with an entry above `0.1`, else the whole norm. -/
def myModule2 : NNModule :=
  .mk (some .script) (some irrepsDim) none [normMod]
    (.seq (.callSub 0) (.op (firstHot ⟨1, 10⟩)))

/-- The guide's `AnotherModule` (unannotated): `return self.mymod(x) + 3.`. -/
def anotherModule : NNModule :=
  .mk none (some irrepsDim) none [myModule2]
    (.seq (.callSub 0) (.op addThreeOp))

/-- The forward of the guide's `TracingModule`: `x[indexes].sum()`, defined for
a tensor of any final dimension paired with an index tensor. -/
def gatherSumOp : TValue → Option TValue
  | .pair (.t2 rows) (.ints idx) =>
    match idx.mapM (fun k => if k < 0 then none else rows[k.toNat]?) with
    | some sel => some (.scalar (sel.foldr (fun r acc => qAdd (sumL r) acc) 0))
    | none => none
  | _ => none

/-- The example input `TracingModule._make_tracing_inputs` returns: a `(5, 2)`
tensor paired with `torch.arange(3)` (the guide draws a random tensor of shape
`(5, randint(1, 3))`; the model uses a fixed representative). -/
def tracingModuleEx : TValue :=
  .pair (.t2 [[1, 0], [0, 1], [1, 1], [0, 0], [2, 0]]) (.ints [0, 1, 2])

/-- The guide's `TracingModule`, marked `@compile_mode('trace')`: no
`irreps_in`, and a `_make_tracing_inputs` returning `n` dicts mapping `forward`
to its argument tuple. -/
def tracingModule : NNModule :=
  .mk (some .trace) none
    (some (fun n => List.replicate n [("forward", tracingModuleEx)])) [] (.op gatherSumOp)

/-- A module whose forward is exactly the data-dependent gate of the guide's
first `MyModule` (`if torch.any(x > 7.)` choosing between the input and its
halving), with no submodules. -/
def gateModule : NNModule :=
  .mk none none none [] (.branch (anyOver 7) (.op idOp) (.op scaleHalfOp))

/-- A parent like `AnotherModule` whose submodule is the plain, unannotated
`gateModule`: tracing the parent traces through the uncompiled submodule and
freezes its data-dependent branch. -/
def plainParent : NNModule :=
  .mk none none none [gateModule] (.seq (.callSub 0) (.op addThreeOp))

/-! ### The o3 layers (claim C6)

Modelled from the spec: the `o3` code itself is not in the excerpted sources.
An irreps types a feature vector as `k` blocks of dimensions `d 0, …, d (k-1)`;
`D_from_matrix R` acts on such a vector block-diagonally, each block by an
orthogonal matrix (the Wigner matrices of the actual library are orthogonal, so
quantifying over arbitrary orthogonal blocks covers every `D_from_matrix R`).
`Norm` maps the vector to the `k` block norms, whose output irreps are even
scalars, on which the group acts trivially; `TensorProduct` maps two vectors to
their tensor product, on which the group acts by the Kronecker product of the
two representations. -/

/-- The block-diagonal action of a group element on an irreps-typed feature
vector: each block is multiplied by that block's representation matrix. -/
def blockAction {k : ℕ} (d : Fin k → ℕ) (Ds : ∀ i, Matrix (Fin (d i)) (Fin (d i)) ℚ)
    (x : ∀ i, Fin (d i) → ℚ) : ∀ i, Fin (d i) → ℚ :=
  fun i => (Ds i).mulVec (x i)

/-- Modelled from the spec: the forward of `o3.Norm` on an irreps-typed feature
vector — the norm of each irrep block. -/
def o3NormForward {k : ℕ} (d : Fin k → ℕ) (x : ∀ i, Fin (d i) → ℚ) : Fin k → ℚ :=
  fun i => Rat.sqrt (Matrix.dotProduct (x i) (x i))

/-- Modelled from the spec: the forward of the full `o3.TensorProduct` of two
feature vectors (before decomposition): the tensor of all products of entries. -/
def tpForward {n m : ℕ} (x : Fin n → ℚ) (y : Fin m → ℚ) : Fin n × Fin m → ℚ :=
  fun p => x p.1 * y p.2

/-- The Kronecker product of the two input representations: the representation
carried by the tensor-product output. -/
def kronMat {n m : ℕ} (D : Matrix (Fin n) (Fin n) ℚ) (E : Matrix (Fin m) (Fin m) ℚ) :
    Matrix (Fin n × Fin m) (Fin n × Fin m) ℚ :=
  fun p q => D p.1 q.1 * E p.2 q.2

/-! ### Concrete values and expected compiled artifacts used by the claims -/

/-- An input whose norm exceeds the `7.` threshold (takes the first branch). -/
def exHot : TValue := .t2 [[8, 0, 0, 0, 0]]

/-- An input whose norm stays below the `7.` threshold (takes the second branch). -/
def xCold : TValue := .t2 [[2, 0, 0, 0, 0]]

/-- A one-entry tensor above the gate threshold. -/
def ex10 : TValue := .t2 [[10]]

/-- A one-entry tensor below the gate threshold. -/
def x4 : TValue := .t2 [[4]]

/-- A batch-3 example input for tracing `AnotherModule` (first row has a hot
entry, as a random draw typically would). -/
def exBatch3 : TValue := .t2 [[1, 0, 0, 0, 0], [0, 0, 0, 0, 0], [0, 0, 0, 0, 0]]

/-- The compiled form of `normMod`: traced, with its branch-free body intact. -/
def cNormTraced : CModule := .traced [] (.op (normOp irrepsDims))

/-- The compiled form of `myModule2`: scripted, over the traced `Norm`. -/
def cMyScripted : CModule := .scripted [cNormTraced] (.seq (.callSub 0) (.op (firstHot ⟨1, 10⟩)))

/-- The result of `script` on `anotherModule`. -/
def cScriptAnother : CModule := .scripted [cMyScripted] (.seq (.callSub 0) (.op addThreeOp))

/-- The result of `trace` on `anotherModule` (its body is branch-free, so
tracing leaves it intact). -/
def cTraceAnother : CModule := .traced [cMyScripted] (.seq (.callSub 0) (.op addThreeOp))

/-- A concrete one-block feature vector used to instantiate the equivariance
theorem. -/
def xW : ∀ _ : Fin 1, Fin 3 → ℚ := fun _ j => (j.val : ℚ)

/-- Order relation on logged positions: the earlier entry is not a proper
ancestor of the later one (descendants are compiled before their ancestors). -/
def notAncestorOf (a b : JPath) : Prop := ∀ r : JPath, r ≠ [] → b ≠ a ++ r

/-! ### Structural lemmas about the dispatch -/

theorem compileWith_tag (pfx : JPath) (mode : Option CompileMode) (exO : Option TValue)
    (m : NNModule) (c : CModule) (log : List JPath)
    (h : compileWith pfx mode exO m = some (c, log)) : CModule.tag c = mode := by
  cases m with
  | mk md ir mt subs body =>
    simp only [compileWith] at h
    split at h
    · exact Option.noConfusion h
    · split at h
      · simp only [Option.some.injEq, Prod.mk.injEq] at h
        rw [← h.1]; rfl
      · simp only [Option.some.injEq, Prod.mk.injEq] at h
        rw [← h.1]; rfl
      · split at h
        · exact Option.noConfusion h
        · split at h
          · simp only [Option.some.injEq, Prod.mk.injEq] at h
            rw [← h.1]; rfl
          · exact Option.noConfusion h

theorem compileSubs_get (ss : List NNModule) : ∀ (pfx : JPath) (k : Nat) (cs : List CModule)
    (l : List JPath) (i : Nat) (s : NNModule),
    compileSubs pfx k ss = some (cs, l) → ss[i]? = some s →
    ∃ c2 l2, cs[i]? = some c2 ∧ compileWith (pfx ++ [k + i]) s.modeOf none s = some (c2, l2) ∧
      ∀ q ∈ l2, q ∈ l := by
  induction ss with
  | nil => intro pfx k cs l i s h hs; simp at hs
  | cons hd tl ih =>
    intro pfx k cs l i s h hs
    simp only [compileSubs] at h
    split at h
    · exact Option.noConfusion h
    next c1 l1 hc1 =>
      split at h
      · exact Option.noConfusion h
      next cs2 l2 hcs2 =>
        simp only [Option.some.injEq, Prod.mk.injEq] at h
        obtain ⟨hcseq, hleq⟩ := h
        cases i with
        | zero =>
          simp only [List.getElem?_cons_zero, Option.some.injEq] at hs
          subst hs
          refine ⟨c1, l1, ?_, ?_, ?_⟩
          · rw [← hcseq]; simp
          · simpa using hc1
          · intro q hq; rw [← hleq]; exact List.mem_append_left _ hq
        | succ j =>
          simp only [List.getElem?_cons_succ] at hs
          obtain ⟨c2, l2b, hg, hcw, hsub⟩ := ih pfx (k + 1) cs2 l2 j s hcs2 hs
          refine ⟨c2, l2b, ?_, ?_, ?_⟩
          · rw [← hcseq]; simpa using hg
          · have : k + 1 + j = k + (j + 1) := by omega
            rwa [this] at hcw
          · intro q hq; rw [← hleq]; exact List.mem_append_right _ (hsub q hq)

theorem compileWith_subs_mem (pfx : JPath) (mode : Option CompileMode) (exO : Option TValue)
    (m : NNModule) (c : CModule) (log : List JPath)
    (h : compileWith pfx mode exO m = some (c, log)) :
    ∃ slog, compileSubs pfx 0 m.subsOf = some (c.subsOf, slog) ∧ ∀ q ∈ slog, q ∈ log := by
  cases m with
  | mk md ir mt subs body =>
    simp only [compileWith] at h
    split at h
    · exact Option.noConfusion h
    next csubs slog hcs =>
      refine ⟨slog, ?_, ?_⟩
      · rw [NNModule.subsOf, hcs]
        split at h
        · simp only [Option.some.injEq, Prod.mk.injEq] at h
          rw [← h.1]; rfl
        · simp only [Option.some.injEq, Prod.mk.injEq] at h
          rw [← h.1]; rfl
        · split at h
          · exact Option.noConfusion h
          · split at h
            · simp only [Option.some.injEq, Prod.mk.injEq] at h
              rw [← h.1]; rfl
            · exact Option.noConfusion h
      · intro q hq
        split at h
        · simp only [Option.some.injEq, Prod.mk.injEq] at h
          rw [← h.2]; exact hq
        · simp only [Option.some.injEq, Prod.mk.injEq] at h
          rw [← h.2]; exact List.mem_append_left _ hq
        · split at h
          · exact Option.noConfusion h
          · split at h
            · simp only [Option.some.injEq, Prod.mk.injEq] at h
              rw [← h.2]; exact List.mem_append_left _ hq
            · exact Option.noConfusion h

theorem compileWith_atP : ∀ (p : JPath) (pfx : JPath) (mode : Option CompileMode)
    (exO : Option TValue) (m : NNModule) (c : CModule) (log : List JPath) (s : NNModule),
    compileWith pfx mode exO m = some (c, log) → NNModule.atP p m = some s → p ≠ [] →
    ∃ c2 l2, CModule.atP p c = some c2 ∧
      compileWith (pfx ++ p) s.modeOf none s = some (c2, l2) ∧ ∀ q ∈ l2, q ∈ log := by
  intro p
  induction p with
  | nil => intro _ _ _ _ _ _ _ _ _ hne; exact absurd rfl hne
  | cons i rest ih =>
    intro pfx mode exO m c log s hcomp hat _
    obtain ⟨slog, hcs, hmem⟩ := compileWith_subs_mem pfx mode exO m c log hcomp
    simp only [NNModule.atP] at hat
    cases hg : m.subsOf[i]? with
    | none => rw [hg] at hat; exact Option.noConfusion hat
    | some s1 =>
      rw [hg] at hat
      obtain ⟨c2, l2, hcg, hcw, hsub⟩ :=
        compileSubs_get m.subsOf pfx 0 c.subsOf slog i s1 hcs hg
      rw [Nat.zero_add] at hcw
      cases rest with
      | nil =>
        simp only [NNModule.atP, Option.some.injEq] at hat
        subst hat
        refine ⟨c2, l2, ?_, ?_, ?_⟩
        · simp only [CModule.atP, hcg]
        · simpa using hcw
        · intro q hq; exact hmem q (hsub q hq)
      | cons j rest2 =>
        obtain ⟨c3, l3, hat3, hcw3, hsub3⟩ :=
          ih (pfx ++ [i]) s1.modeOf none s1 c2 l2 s hcw hat (by simp)
        refine ⟨c3, l3, ?_, ?_, ?_⟩
        · simp only [CModule.atP, hcg]; exact hat3
        · have : pfx ++ [i] ++ (j :: rest2) = pfx ++ i :: j :: rest2 := by simp
          rwa [this] at hcw3
        · intro q hq; exact hmem q (hsub q (hsub3 q hq))

theorem compileWith_log_top (pfx : JPath) (mode : Option CompileMode) (exO : Option TValue)
    (m : NNModule) (c : CModule) (log : List JPath)
    (h : compileWith pfx mode exO m = some (c, log)) (hs : mode.isSome = true) : pfx ∈ log := by
  cases m with
  | mk md ir mt subs body =>
    simp only [compileWith] at h
    split at h
    · exact Option.noConfusion h
    · split at h
      · simp at hs
      · simp only [Option.some.injEq, Prod.mk.injEq] at h
        rw [← h.2]; simp
      · split at h
        · exact Option.noConfusion h
        · split at h
          · simp only [Option.some.injEq, Prod.mk.injEq] at h
            rw [← h.2]; simp
          · exact Option.noConfusion h

theorem compileWith_log_facts : ∀ (pfx : JPath) (mode : Option CompileMode) (exO : Option TValue)
    (m : NNModule) (c : CModule) (log : List JPath),
    compileWith pfx mode exO m = some (c, log) →
    (∀ q ∈ log, ∃ t, q = pfx ++ t) ∧ log.Pairwise notAncestorOf := by
  have main : ∀ (pfx : JPath) (mode : Option CompileMode) (exO : Option TValue) (m : NNModule),
      ∀ c log, compileWith pfx mode exO m = some (c, log) →
      (∀ q ∈ log, ∃ t, q = pfx ++ t) ∧ log.Pairwise notAncestorOf := by
    refine @compileWith.induct
      (fun pfx mode exO m => ∀ c log, compileWith pfx mode exO m = some (c, log) →
        (∀ q ∈ log, ∃ t, q = pfx ++ t) ∧ log.Pairwise notAncestorOf)
      (fun pfx i ss => ∀ cs l, compileSubs pfx i ss = some (cs, l) →
        (∀ q ∈ l, ∃ j t, i ≤ j ∧ q = pfx ++ j :: t) ∧ l.Pairwise notAncestorOf)
      ?_ ?_ ?_ ?_ ?_ ?_ ?_ ?_ ?_ ?_
    · intro pfx mode exO md ir mt subs body hcs _ c log hcomp
      simp only [compileWith, hcs] at hcomp
      exact Option.noConfusion hcomp
    · intro pfx exO md ir mt subs body csubs slog hcs ih2 c log hcomp
      simp only [compileWith, hcs, Option.some.injEq, Prod.mk.injEq] at hcomp
      obtain ⟨hsh, hpw⟩ := ih2 csubs slog hcs
      rw [← hcomp.2]
      refine ⟨?_, hpw⟩
      intro q hq
      obtain ⟨j, t, _, hqe⟩ := hsh q hq
      exact ⟨j :: t, hqe⟩
    · intro pfx exO md ir mt subs body csubs slog hcs ih2 c log hcomp
      simp only [compileWith, hcs, Option.some.injEq, Prod.mk.injEq] at hcomp
      obtain ⟨hsh, hpw⟩ := ih2 csubs slog hcs
      rw [← hcomp.2]
      constructor
      · intro q hq
        rcases List.mem_append.mp hq with hq1 | hq2
        · obtain ⟨j, t, _, hqe⟩ := hsh q hq1
          exact ⟨j :: t, hqe⟩
        · rw [List.mem_singleton.mp hq2]
          exact ⟨[], by simp⟩
      · rw [List.pairwise_append]
        refine ⟨hpw, List.pairwise_singleton _ _, ?_⟩
        intro a ha b hb
        rw [List.mem_singleton.mp hb]
        obtain ⟨j, t, _, hae⟩ := hsh a ha
        intro r hr heq
        have hlen : pfx.length = a.length + r.length := by
          rw [heq]; simp
        rw [hae] at hlen
        simp only [List.length_append, List.length_cons] at hlen
        cases r with
        | nil => exact hr rfl
        | cons u v => simp only [List.length_cons] at hlen; omega
    · intro pfx exO md ir mt subs body csubs slog hcs hex _ c log hcomp
      simp only [compileWith, hcs, hex] at hcomp
      exact Option.noConfusion hcomp
    · intro pfx exO md ir mt subs body csubs slog hcs ex hex b2 z htr ih2 c log hcomp
      simp only [compileWith, hcs, hex, htr, Option.some.injEq, Prod.mk.injEq] at hcomp
      obtain ⟨hsh, hpw⟩ := ih2 csubs slog hcs
      rw [← hcomp.2]
      constructor
      · intro q hq
        rcases List.mem_append.mp hq with hq1 | hq2
        · obtain ⟨j, t, _, hqe⟩ := hsh q hq1
          exact ⟨j :: t, hqe⟩
        · rw [List.mem_singleton.mp hq2]
          exact ⟨[], by simp⟩
      · rw [List.pairwise_append]
        refine ⟨hpw, List.pairwise_singleton _ _, ?_⟩
        intro a ha b hb
        rw [List.mem_singleton.mp hb]
        obtain ⟨j, t, _, hae⟩ := hsh a ha
        intro r hr heq
        have hlen : pfx.length = a.length + r.length := by
          rw [heq]; simp
        rw [hae] at hlen
        simp only [List.length_append, List.length_cons] at hlen
        cases r with
        | nil => exact hr rfl
        | cons u v => simp only [List.length_cons] at hlen; omega
    · intro pfx exO md ir mt subs body csubs slog hcs ex hex htr _ c log hcomp
      simp only [compileWith, hcs, hex, htr] at hcomp
      exact Option.noConfusion hcomp
    · intro pfx i cs l hcomp
      simp only [compileSubs, Option.some.injEq, Prod.mk.injEq] at hcomp
      rw [← hcomp.2]
      exact ⟨by simp, List.Pairwise.nil⟩
    · intro pfx i m ms hcw _ cs l hcomp
      simp only [compileSubs, hcw] at hcomp
      exact Option.noConfusion hcomp
    · intro pfx i m ms c1 l1 hcw hcs _ _ cs l hcomp
      simp only [compileSubs, hcw, hcs] at hcomp
      exact Option.noConfusion hcomp
    · intro pfx i m ms c1 l1 hcw csubs slog hcs ih1 ih2 cs l hcomp
      simp only [compileSubs, hcw, hcs, Option.some.injEq, Prod.mk.injEq] at hcomp
      obtain ⟨hsh1, hpw1⟩ := ih1 c1 l1 hcw
      obtain ⟨hsh2, hpw2⟩ := ih2 csubs slog hcs
      rw [← hcomp.2]
      have hsh1c : ∀ q ∈ l1, ∃ t, q = pfx ++ i :: t := by
        intro q hq
        obtain ⟨t, hqe⟩ := hsh1 q hq
        exact ⟨t, by rw [hqe]; simp⟩
      constructor
      · intro q hq
        rcases List.mem_append.mp hq with hq1 | hq2
        · obtain ⟨t, hqe⟩ := hsh1c q hq1
          exact ⟨i, t, Nat.le_refl i, hqe⟩
        · obtain ⟨j, t, hj, hqe⟩ := hsh2 q hq2
          exact ⟨j, t, by omega, hqe⟩
      · rw [List.pairwise_append]
        refine ⟨hpw1, hpw2, ?_⟩
        intro a ha b hb
        obtain ⟨ta, hae⟩ := hsh1c a ha
        obtain ⟨j, tb, hj, hbe⟩ := hsh2 b hb
        intro r hr heq
        rw [hae, hbe, List.append_assoc] at heq
        have h2 : (j : Nat) :: tb = i :: (ta ++ r) := by
          have := (List.append_right_inj pfx).mp heq
          simpa using this
        have : j = i := ((List.cons.injEq _ _ _ _).mp h2).1
        omega
  exact fun pfx mode exO m c log h => main pfx mode exO m c log h

/-! ### Behaviour-preservation lemmas -/

theorem forall2_get {α β : Type} (R : α → β → Prop) : ∀ (l1 : List α) (l2 : List β),
    List.Forall₂ R l1 l2 → ∀ i : Nat,
    (l1[i]? = none ∧ l2[i]? = none) ∨ ∃ a b, l1[i]? = some a ∧ l2[i]? = some b ∧ R a b := by
  intro l1 l2 h
  induction h with
  | nil => intro i; left; simp
  | cons hr ht ih =>
    intro i
    cases i with
    | zero => right; exact ⟨_, _, by simp, by simp, hr⟩
    | succ j => simpa using ih j

theorem evalB_env_congr (env1 env2 : List (TValue → Option TValue))
    (h : List.Forall₂ (fun f g => ∀ x, f x = g x) env1 env2) :
    ∀ (b : Body) (x : TValue), Body.evalB env1 b x = Body.evalB env2 b x := by
  intro b
  induction b with
  | op f => intro x; rfl
  | callSub i =>
    intro x
    simp only [Body.evalB]
    rcases forall2_get _ _ _ h i with ⟨h1, h2⟩ | ⟨f, g, h1, h2, hr⟩
    · rw [h1, h2]
    · rw [h1, h2]; exact hr x
  | seq a b iha ihb =>
    intro x
    simp only [Body.evalB]
    rw [iha x]
    cases Body.evalB env2 a x with
    | none => rfl
    | some y => exact ihb y
  | branch c t e iht ihe =>
    intro x
    simp only [Body.evalB]
    by_cases hc : c x
    · rw [if_pos hc, if_pos hc]; exact iht x
    · rw [if_neg hc, if_neg hc]; exact ihe x

theorem forwardList_getElem : ∀ (cs : List CModule) (i : Nat),
    (CModule.forwardList cs)[i]? = Option.map (fun c => fun x => CModule.forward c x) cs[i]? := by
  intro cs
  induction cs with
  | nil => intro i; simp [CModule.forwardList]
  | cons c cs ih =>
    intro i
    cases i with
    | zero => simp [CModule.forwardList]
    | succ j => simp only [CModule.forwardList, List.getElem?_cons_succ]; exact ih j

theorem cPlainOkList_mem : ∀ (cs : List CModule), cPlainOkList cs = true →
    ∀ c ∈ cs, cPlainOk c = true := by
  intro cs
  induction cs with
  | nil => intro _ c hc; simp at hc
  | cons d ds ih =>
    intro h c hc
    simp only [cPlainOkList, Bool.and_eq_true] at h
    rcases List.mem_cons.mp hc with he | ht
    · rw [he]; exact h.1
    · exact ih h.2 c ht

theorem traceThroughF_preserves : ∀ (fuel : Nat) (cs : List CModule) (b : Body) (x : TValue)
    (b2 : Body) (v : TValue), branchFree b = true → cPlainOkList cs = true →
    traceThroughF fuel cs b x = some (b2, v) →
    ∀ y, Body.evalB (CModule.forwardList cs) b2 y = Body.evalB (CModule.forwardList cs) b y := by
  intro fuel
  induction fuel with
  | zero =>
    intro cs b x b2 v _ _ htr
    simp only [traceThroughF] at htr
    exact Option.noConfusion htr
  | succ f ih =>
    intro cs b x b2 v hbf hcpl htr
    cases b with
    | op g =>
      simp only [traceThroughF] at htr
      split at htr
      next y hg =>
        simp only [Option.some.injEq, Prod.mk.injEq] at htr
        intro y2
        rw [← htr.1]
      · exact Option.noConfusion htr
    | callSub i =>
      simp only [traceThroughF] at htr
      split at htr
      next subs2 body2 heq =>
        split at htr
        next rb z htr2 =>
          simp only [Option.some.injEq, Prod.mk.injEq] at htr
          have hmem : CModule.plain subs2 body2 ∈ cs := by
            obtain ⟨hlt, hg⟩ := List.getElem?_eq_some.mp heq
            rw [← hg]
            exact List.getElem_mem hlt
          have hcp := cPlainOkList_mem cs hcpl _ hmem
          simp only [cPlainOk, Bool.and_eq_true] at hcp
          intro y
          rw [← htr.1]
          show Body.evalB (CModule.forwardList subs2) rb y =
            Body.evalB (CModule.forwardList cs) (.callSub i) y
          have hget : (CModule.forwardList cs)[i]? =
              some (fun t => CModule.forward (CModule.plain subs2 body2) t) := by
            rw [forwardList_getElem, heq]; rfl
          simp only [Body.evalB, hget]
          show Body.evalB (CModule.forwardList subs2) rb y =
            CModule.forward (CModule.plain subs2 body2) y
          simp only [CModule.forward]
          exact ih subs2 body2 x rb z hcp.1 hcp.2 htr2 y
        · exact Option.noConfusion htr
      next subs2 body2 heq =>
        split at htr
        next y hf =>
          simp only [Option.some.injEq, Prod.mk.injEq] at htr
          intro y2
          rw [← htr.1]
        · exact Option.noConfusion htr
      next subs2 body2 heq =>
        split at htr
        next y hf =>
          simp only [Option.some.injEq, Prod.mk.injEq] at htr
          intro y2
          rw [← htr.1]
        · exact Option.noConfusion htr
      next heq => exact Option.noConfusion htr
    | seq a b =>
      simp only [branchFree, Bool.and_eq_true] at hbf
      simp only [traceThroughF] at htr
      split at htr
      next a2 ya htra =>
        split at htr
        next b2m zb htrb =>
          simp only [Option.some.injEq, Prod.mk.injEq] at htr
          intro y
          rw [← htr.1]
          show Body.evalB (CModule.forwardList cs) (.seq a2 b2m) y =
            Body.evalB (CModule.forwardList cs) (.seq a b) y
          simp only [Body.evalB]
          rw [ih cs a x a2 ya hbf.1 hcpl htra y]
          cases Body.evalB (CModule.forwardList cs) a y with
          | none => rfl
          | some u => exact ih cs b ya b2m zb hbf.2 hcpl htrb u
        · exact Option.noConfusion htr
      · exact Option.noConfusion htr
    | branch c t e =>
      simp [branchFree] at hbf

theorem traceThrough_preserves : ∀ (cs : List CModule) (b : Body) (x : TValue)
    (b2 : Body) (v : TValue), branchFree b = true → cPlainOkList cs = true →
    traceThrough cs b x = some (b2, v) →
    ∀ y, Body.evalB (CModule.forwardList cs) b2 y = Body.evalB (CModule.forwardList cs) b y :=
  fun cs b x b2 v h1 h2 htr =>
    traceThroughF_preserves (cmsizeList cs + bsize b) cs b x b2 v h1 h2 htr

theorem plainOk_spec : ∀ m : NNModule, plainOk m = true → NNModule.modeOf m = none →
    (branchFree (NNModule.bodyOf m) && plainOkList (NNModule.subsOf m)) = true := by
  intro m h hm
  cases m with
  | mk mode ir mt subs body =>
    simp only [NNModule.modeOf] at hm
    subst hm
    simpa [plainOk, NNModule.bodyOf, NNModule.subsOf] using h

theorem compileWith_cPlainOk : ∀ (pfx : JPath) (mode : Option CompileMode) (exO : Option TValue)
    (m : NNModule) (c : CModule) (log : List JPath),
    compileWith pfx mode exO m = some (c, log) →
    (mode = none → (branchFree (NNModule.bodyOf m) && plainOkList (NNModule.subsOf m)) = true) →
    cPlainOk c = true := by
  have main : ∀ (pfx : JPath) (mode : Option CompileMode) (exO : Option TValue) (m : NNModule),
      ∀ c log, compileWith pfx mode exO m = some (c, log) →
      (mode = none → (branchFree (NNModule.bodyOf m) && plainOkList (NNModule.subsOf m)) = true) →
      cPlainOk c = true := by
    refine @compileWith.induct
      (fun pfx mode exO m => ∀ c log, compileWith pfx mode exO m = some (c, log) →
        (mode = none →
          (branchFree (NNModule.bodyOf m) && plainOkList (NNModule.subsOf m)) = true) →
        cPlainOk c = true)
      (fun pfx i ss => ∀ cs l, compileSubs pfx i ss = some (cs, l) →
        plainOkList ss = true → cPlainOkList cs = true)
      ?_ ?_ ?_ ?_ ?_ ?_ ?_ ?_ ?_ ?_
    · intro pfx mode exO md ir mt subs body hcs _ c log hcomp
      simp only [compileWith, hcs] at hcomp
      exact Option.noConfusion hcomp
    · -- mode = none : the node stays plain
      intro pfx exO md ir mt subs body csubs slog hcs ih2 c log hcomp hok
      simp only [compileWith, hcs, Option.some.injEq, Prod.mk.injEq] at hcomp
      have hok2 := hok rfl
      simp only [NNModule.bodyOf, NNModule.subsOf, Bool.and_eq_true] at hok2
      rw [← hcomp.1]
      show cPlainOk (.plain csubs body) = true
      simp only [cPlainOk, Bool.and_eq_true]
      exact ⟨hok2.1, ih2 csubs slog hcs hok2.2⟩
    · -- mode = script : scripted nodes need no condition
      intro pfx exO md ir mt subs body csubs slog hcs _ c log hcomp _
      simp only [compileWith, hcs, Option.some.injEq, Prod.mk.injEq] at hcomp
      rw [← hcomp.1]; rfl
    · intro pfx exO md ir mt subs body csubs slog hcs hex _ c log hcomp _
      simp only [compileWith, hcs, hex] at hcomp
      exact Option.noConfusion hcomp
    · -- mode = trace : traced nodes need no condition
      intro pfx exO md ir mt subs body csubs slog hcs ex hex b2 z htr _ c log hcomp _
      simp only [compileWith, hcs, hex, htr, Option.some.injEq, Prod.mk.injEq] at hcomp
      rw [← hcomp.1]; rfl
    · intro pfx exO md ir mt subs body csubs slog hcs ex hex htr _ c log hcomp _
      simp only [compileWith, hcs, hex, htr] at hcomp
      exact Option.noConfusion hcomp
    · intro pfx i cs l hcomp _
      simp only [compileSubs, Option.some.injEq, Prod.mk.injEq] at hcomp
      rw [← hcomp.1]; rfl
    · intro pfx i m ms hcw _ cs l hcomp
      simp only [compileSubs, hcw] at hcomp
      exact Option.noConfusion hcomp
    · intro pfx i m ms c1 l1 hcw hcs _ _ cs l hcomp
      simp only [compileSubs, hcw, hcs] at hcomp
      exact Option.noConfusion hcomp
    · -- compileSubs cons, both ok
      intro pfx i m ms c1 l1 hcw csubs slog hcs ih1 ih2 cs l hcomp hok
      simp only [compileSubs, hcw, hcs, Option.some.injEq, Prod.mk.injEq] at hcomp
      simp only [plainOkList, Bool.and_eq_true] at hok
      rw [← hcomp.1]
      show cPlainOkList (c1 :: csubs) = true
      simp only [cPlainOkList, Bool.and_eq_true]
      refine ⟨ih1 c1 l1 hcw ?_, ih2 csubs slog hcs hok.2⟩
      intro hmode
      exact plainOk_spec m hok.1 hmode
  exact fun pfx mode exO m c log h1 h2 => main pfx mode exO m c log h1 h2

theorem compileSubs_cPlainOk : ∀ (ss : List NNModule) (pfx : JPath) (i : Nat)
    (cs : List CModule) (l : List JPath),
    compileSubs pfx i ss = some (cs, l) → plainOkList ss = true → cPlainOkList cs = true := by
  intro ss
  induction ss with
  | nil =>
    intro pfx i cs l hcomp _
    simp only [compileSubs, Option.some.injEq, Prod.mk.injEq] at hcomp
    rw [← hcomp.1]; rfl
  | cons s ss ih =>
    intro pfx i cs l hcomp hok
    simp only [compileSubs] at hcomp
    split at hcomp
    · exact Option.noConfusion hcomp
    next c1 l1 hcw =>
      split at hcomp
      · exact Option.noConfusion hcomp
      next cs2 l2 hcs2 =>
        simp only [Option.some.injEq, Prod.mk.injEq] at hcomp
        simp only [plainOkList, Bool.and_eq_true] at hok
        rw [← hcomp.1]
        show cPlainOkList (c1 :: cs2) = true
        simp only [cPlainOkList, Bool.and_eq_true]
        exact ⟨compileWith_cPlainOk _ _ _ _ _ _ hcw (fun hm => plainOk_spec s hok.1 hm),
          ih pfx (i + 1) cs2 l2 hcs2 hok.2⟩

theorem forwardList_congr : ∀ (cs : List CModule) (ss : List NNModule),
    List.Forall₂ (fun c s => ∀ x, CModule.forward c x = NNModule.evalM s x) cs ss →
    List.Forall₂ (fun f g => ∀ x, f x = g x) (CModule.forwardList cs) (NNModule.evalList ss) := by
  intro cs ss h
  induction h with
  | nil => simp only [CModule.forwardList, NNModule.evalList]; exact List.Forall₂.nil
  | cons hr ht ih =>
    simp only [CModule.forwardList, NNModule.evalList]
    exact List.Forall₂.cons hr ih

theorem compileWith_equiv : ∀ (pfx : JPath) (mode : Option CompileMode) (exO : Option TValue)
    (m : NNModule) (c : CModule) (log : List JPath), okCompile mode m = true →
    compileWith pfx mode exO m = some (c, log) →
    ∀ x, CModule.forward c x = NNModule.evalM m x := by
  have main : ∀ (pfx : JPath) (mode : Option CompileMode) (exO : Option TValue) (m : NNModule),
      ∀ c log, okCompile mode m = true → compileWith pfx mode exO m = some (c, log) →
      ∀ x, CModule.forward c x = NNModule.evalM m x := by
    refine @compileWith.induct
      (fun pfx mode exO m => ∀ c log, okCompile mode m = true →
        compileWith pfx mode exO m = some (c, log) →
        ∀ x, CModule.forward c x = NNModule.evalM m x)
      (fun pfx i ss => ∀ cs l, okList ss = true → compileSubs pfx i ss = some (cs, l) →
        List.Forall₂ (fun c s => ∀ x, CModule.forward c x = NNModule.evalM s x) cs ss)
      ?_ ?_ ?_ ?_ ?_ ?_ ?_ ?_ ?_ ?_
    · intro pfx mode exO md ir mt subs body hcs _ c log _ hcomp
      simp only [compileWith, hcs] at hcomp
      exact Option.noConfusion hcomp
    · intro pfx exO md ir mt subs body csubs slog hcs ih2 c log hok hcomp
      simp only [compileWith, hcs] at hcomp
      simp only [Option.some.injEq, Prod.mk.injEq] at hcomp
      simp only [okCompile, Bool.and_eq_true] at hok
      have hf2 := ih2 csubs slog hok.2 hcs
      intro x
      rw [← hcomp.1]
      show Body.evalB (CModule.forwardList csubs) body x =
        NNModule.evalM (NNModule.mk md ir mt subs body) x
      simp only [NNModule.evalM]
      exact evalB_env_congr _ _ (forwardList_congr _ _ hf2) body x
    · intro pfx exO md ir mt subs body csubs slog hcs ih2 c log hok hcomp
      simp only [compileWith, hcs] at hcomp
      simp only [Option.some.injEq, Prod.mk.injEq] at hcomp
      simp only [okCompile, Bool.and_eq_true] at hok
      have hf2 := ih2 csubs slog hok.2 hcs
      intro x
      rw [← hcomp.1]
      show Body.evalB (CModule.forwardList csubs) body x =
        NNModule.evalM (NNModule.mk md ir mt subs body) x
      simp only [NNModule.evalM]
      exact evalB_env_congr _ _ (forwardList_congr _ _ hf2) body x
    · intro pfx exO md ir mt subs body csubs slog hcs hex _ c log _ hcomp
      simp only [compileWith, hcs, hex] at hcomp
      exact Option.noConfusion hcomp
    · intro pfx exO md ir mt subs body csubs slog hcs ex hex b2 z htr ih2 c log hok hcomp
      simp only [compileWith, hcs, hex, htr] at hcomp
      simp only [Option.some.injEq, Prod.mk.injEq] at hcomp
      simp only [okCompile, Bool.and_eq_true] at hok
      have hf2 := ih2 csubs slog hok.2 hcs
      have hcpl : cPlainOkList csubs = true :=
        compileSubs_cPlainOk subs pfx 0 csubs slog hcs hok.1.2
      intro x
      rw [← hcomp.1]
      show Body.evalB (CModule.forwardList csubs) b2 x =
        NNModule.evalM (NNModule.mk md ir mt subs body) x
      rw [traceThrough_preserves csubs body ex b2 z hok.1.1 hcpl htr x]
      simp only [NNModule.evalM]
      exact evalB_env_congr _ _ (forwardList_congr _ _ hf2) body x
    · intro pfx exO md ir mt subs body csubs slog hcs ex hex htr _ c log _ hcomp
      simp only [compileWith, hcs, hex, htr] at hcomp
      exact Option.noConfusion hcomp
    · intro pfx i cs l _ hcomp
      simp only [compileSubs, Option.some.injEq, Prod.mk.injEq] at hcomp
      rw [← hcomp.1]
      exact List.Forall₂.nil
    · intro pfx i m ms hcw _ cs l _ hcomp
      simp only [compileSubs, hcw] at hcomp
      exact Option.noConfusion hcomp
    · intro pfx i m ms c1 l1 hcw hcs _ _ cs l _ hcomp
      simp only [compileSubs, hcw, hcs] at hcomp
      exact Option.noConfusion hcomp
    · intro pfx i m ms c1 l1 hcw csubs slog hcs ih1 ih2 cs l hok hcomp
      simp only [compileSubs, hcw, hcs] at hcomp
      simp only [Option.some.injEq, Prod.mk.injEq] at hcomp
      simp only [okList, Bool.and_eq_true] at hok
      rw [← hcomp.1]
      exact List.Forall₂.cons (ih1 c1 l1 hok.1 hcw) (ih2 csubs slog hok.2 hcs)
  exact fun pfx mode exO m c log h1 h2 => main pfx mode exO m c log h1 h2

/-- Orthogonal matrices preserve the dot product of a vector with itself. -/
theorem dot_mulVec_self {n : ℕ} (A : Matrix (Fin n) (Fin n) ℚ) (v : Fin n → ℚ)
    (h : Matrix.transpose A * A = 1) :
    Matrix.dotProduct (A.mulVec v) (A.mulVec v) = Matrix.dotProduct v v := by
  rw [Matrix.dotProduct_mulVec, Matrix.vecMul_mulVec, h, Matrix.vecMul_one]

/-! ### The claims -/

/-- Claim C1, amended.  The claim as stated — every module compiled via
`script`, `trace` or `compile` is behaviourally equivalent to the original on
every input — fails for traced modules whose own forward contains a
data-dependent branch, and likewise when such a branch sits in a plain,
unannotated submodule that the tracer inlines (see `claim1_counterexample` for
both).  Amended: for every module in which each node that ends up traced (by
entry-point override or by its own directive) has a branch-free forward, and so
does every submodule reachable from such a node through plain, unannotated
modules — the ones tracing traces through — the compiled module returns the
same result as the original on every input; in particular a scripted submodule
inside a traced parent still selects its branch by the input's values. -/
theorem claim1_compile_equiv :
    ∀ (m : NNModule) (c : CModule) (log : List JPath) (x : TValue),
      (okCompile (some CompileMode.script) m = true → script m = some (c, log) →
        CModule.forward c x = NNModule.evalM m x) ∧
      (∀ ex, okCompile (some CompileMode.trace) m = true → trace m ex = some (c, log) →
        CModule.forward c x = NNModule.evalM m x) ∧
      (okCompile (NNModule.modeOf m) m = true → compile m = some (c, log) →
        CModule.forward c x = NNModule.evalM m x) := by
  intro m c log x
  refine ⟨fun hok hc => ?_, fun ex hok hc => ?_, fun hok hc => ?_⟩
  · exact compileWith_equiv [] _ none m c log hok hc x
  · exact compileWith_equiv [] _ (some ex) m c log hok hc x
  · exact compileWith_equiv [] _ none m c log hok hc x

/-- Claim C1 witness: `script` on the guide's `AnotherModule` satisfies the
branch-freeness condition and the scripted module agrees with the original on a
concrete input. -/
theorem claim1_compile_equiv_witness :
    okCompile (some CompileMode.script) anotherModule = true ∧
    CModule.forward cScriptAnother (zerosT 2 5) = NNModule.evalM anotherModule (zerosT 2 5) :=
  ⟨by decide,
   (claim1_compile_equiv anotherModule cScriptAnother [[0, 0], [0], []] (zerosT 2 5)).1
     (by decide) (by rfl)⟩

/-- Claim C1 counterexample.  First scenario: tracing the guide's first
`MyModule` (unannotated, with a data-dependent branch on
`torch.any(norm > 7.)`) on an example taking the hot branch yields a compiled
module that returns the un-halved norm `[[2, 0, 0]]` on an input whose norm
stays below the threshold, while the original returns the halved norm
(denoting `[[1, 0, 0]]`).  Second scenario: tracing a branch-free parent over
the same data-dependent gate left as a plain, unannotated submodule inlines
and freezes the submodule's branch — the traced parent returns `[[7]]` on a
cold input where the original returns the halved-then-shifted value (denoting
`[[5]]`).  In both cases the compiled module is not behaviourally equivalent
to the original on every input. -/
theorem claim1_counterexample :
    ((trace myModule1 exHot).map (fun p => CModule.forward p.1 xCold) =
      some (some (TValue.t2 [[⟨2, 1⟩, ⟨0, 1⟩, ⟨0, 1⟩]])) ∧
    NNModule.evalM myModule1 xCold = some (TValue.t2 [[⟨2, 2⟩, ⟨0, 2⟩, ⟨0, 2⟩]]) ∧
    qDenote ⟨2, 1⟩ ≠ qDenote ⟨2, 2⟩) ∧
    ((trace plainParent ex10).map (fun p => CModule.forward p.1 x4) =
      some (some (TValue.t2 [[⟨7, 1⟩]])) ∧
    NNModule.evalM plainParent x4 = some (TValue.t2 [[⟨10, 2⟩]]) ∧
    qDenote ⟨7, 1⟩ ≠ qDenote ⟨10, 2⟩) :=
  ⟨⟨by decide, by decide, by norm_num [qDenote]⟩,
   ⟨by decide, by decide, by norm_num [qDenote]⟩⟩

/-- Claim C2: the dispatch walks the module hierarchy recursively and compiles
every submodule according to its own attached `@compile_mode` directive: at
every position of the tree (whatever the entry point and top-level override),
the compiled tree carries a scripted node where the directive says `script`, a
traced node where it says `trace`, and an untouched node where there is none. -/
theorem claim2_dispatch_by_directive :
    ∀ (mode : Option CompileMode) (exO : Option TValue) (m : NNModule) (c : CModule)
      (log : List JPath) (p : JPath) (s : NNModule),
      compileWith [] mode exO m = some (c, log) →
      NNModule.atP p m = some s → p ≠ [] →
      ∃ cs, CModule.atP p c = some cs ∧ CModule.tag cs = NNModule.modeOf s := by
  intro mode exO m c log p s hcomp hat hp
  obtain ⟨c2, l2, hatc, hcw, _⟩ := compileWith_atP p [] mode exO m c log s hcomp hat hp
  exact ⟨c2, hatc, compileWith_tag _ _ _ _ _ _ hcw⟩

/-- Claim C2 witness: in the scripted `AnotherModule`, the `Norm` submodule at
position `[0, 0]` (marked `@compile_mode('trace')`) was compiled to a traced
node. -/
theorem claim2_witness :
    ∃ cs, CModule.atP [0, 0] cScriptAnother = some cs ∧
      CModule.tag cs = NNModule.modeOf normMod :=
  claim2_dispatch_by_directive (some .script) none anotherModule cScriptAnother
    [[0, 0], [0], []] [0, 0] normMod (by rfl) (by rfl) (by decide)

/-- Claim C3: compilation proceeds bottom-up.  The dispatch's completion log
orders every directive-carrying submodule strictly before each of its
ancestors (first conjunct, via the recorded completion order; the second
conjunct shows every directive-carrying submodule does appear in the log), and
the compiled submodule is substituted back into the parent in place of the
original: the parent's compiled node holds, at each submodule index, exactly
the compiled form of that submodule (third conjunct). -/
theorem claim3_bottom_up :
    (∀ (mode : Option CompileMode) (exO : Option TValue) (m : NNModule) (c : CModule)
       (log : List JPath) (i j : Nat) (p r : JPath),
       compileWith [] mode exO m = some (c, log) →
       log[i]? = some p → log[j]? = some (p ++ r) → r ≠ [] → j < i) ∧
    (∀ (mode : Option CompileMode) (exO : Option TValue) (m : NNModule) (c : CModule)
       (log : List JPath) (p : JPath) (s : NNModule),
       compileWith [] mode exO m = some (c, log) →
       NNModule.atP p m = some s → p ≠ [] → (NNModule.modeOf s).isSome = true → p ∈ log) ∧
    (∀ (mode : Option CompileMode) (exO : Option TValue) (m : NNModule) (c : CModule)
       (log : List JPath) (i : Nat) (s : NNModule),
       compileWith [] mode exO m = some (c, log) →
       (NNModule.subsOf m)[i]? = some s →
       ∃ c2 l2, (CModule.subsOf c)[i]? = some c2 ∧
         compileWith [i] (NNModule.modeOf s) none s = some (c2, l2)) := by
  refine ⟨?_, ?_, ?_⟩
  · intro mode exO m c log i j p r hcomp hi hj hr
    obtain ⟨_, hpw⟩ := compileWith_log_facts [] mode exO m c log hcomp
    rcases Nat.lt_trichotomy i j with h | h | h
    · exfalso
      obtain ⟨hil, hgi⟩ := List.getElem?_eq_some.mp hi
      obtain ⟨hjl, hgj⟩ := List.getElem?_eq_some.mp hj
      have hrel := List.pairwise_iff_get.mp hpw ⟨i, hil⟩ ⟨j, hjl⟩ h
      rw [List.get_eq_getElem, List.get_eq_getElem, hgi, hgj] at hrel
      exact hrel r hr rfl
    · exfalso
      rw [h, hj] at hi
      have hpp : p ++ r = p := Option.some.inj hi
      have := congrArg List.length hpp
      simp only [List.length_append] at this
      exact hr (List.eq_nil_of_length_eq_zero (by omega))
    · exact h
  · intro mode exO m c log p s hcomp hat hp hs
    obtain ⟨c2, l2, _, hcw, hsub⟩ := compileWith_atP p [] mode exO m c log s hcomp hat hp
    have := compileWith_log_top ([] ++ p) _ none s c2 l2 hcw hs
    exact hsub _ (by simpa using this)
  · intro mode exO m c log i s hcomp hg
    obtain ⟨slog, hcs, _⟩ := compileWith_subs_mem [] mode exO m c log hcomp
    obtain ⟨c2, l2, hcg, hcw, _⟩ := compileSubs_get m.subsOf [] 0 c.subsOf slog i s hcs hg
    rw [Nat.zero_add] at hcw
    exact ⟨c2, l2, hcg, by simpa using hcw⟩

/-- Claim C3 witness: scripting `AnotherModule` logs `Norm` (position
`[0, 0]`), then `MyModule` (position `[0]`), then the root; the directive-
carrying submodule at `[0]` is compiled strictly before its parent, and
`[0, 0]` is logged. -/
theorem claim3_witness :
    script anotherModule = some (cScriptAnother, [[0, 0], [0], []]) ∧ (0 : Nat) < 1 ∧
      [0, 0] ∈ [[0, 0], [0], ([] : JPath)] :=
  ⟨by rfl,
   claim3_bottom_up.1 (some .script) none anotherModule cScriptAnother [[0, 0], [0], []]
     1 0 [0] [0] (by rfl) (by rfl) (by rfl) (by decide),
   claim3_bottom_up.2.1 (some .script) none anotherModule cScriptAnother [[0, 0], [0], []]
     [0, 0] normMod (by rfl) (by rfl) (by decide) (by rfl)⟩

/-- Claim C4, amended.  The claim that every call of the compilation wrapper
itself re-validates behavioural equivalence fails: the wrapper just compiles
(see `claim4_counterexample`, where compilation succeeds although the compiled
module differs from the original).  Amended: behavioural validation is
performed by the separate test helper `assert_auto_jitable`, which compiles the
module and checks the compiled forward against the original on its generated
test input — whenever the helper passes, compiled and original agree there. -/
theorem claim4_validation_in_helper :
    ∀ (m : NNModule) (ss : Bool) (ex : TValue) (c : CModule) (log : List JPath),
      assert_auto_jitable m ss = true →
      selectTracingInput m = some ex → trace m ex = some (c, log) →
      CModule.forward c ex = NNModule.evalM m ex := by
  intro m ss ex c log haaj hsel htr
  simp only [assert_auto_jitable, hsel, htr, Bool.and_eq_true, decide_eq_true_eq] at haaj
  exact haaj.1

/-- Claim C4 witness: `assert_auto_jitable` passes on `AnotherModule`, and the
traced module it produced agrees with the original on the generated test input. -/
theorem claim4_witness :
    assert_auto_jitable anotherModule true = true ∧
    CModule.forward cTraceAnother (zerosT 2 5) = NNModule.evalM anotherModule (zerosT 2 5) :=
  ⟨by decide,
   claim4_validation_in_helper anotherModule true (zerosT 2 5) cTraceAnother
     [[0, 0], [0], []] (by decide) (by rfl) (by rfl)⟩

/-- Claim C4 counterexample: the wrapper performs no behavioural re-validation.
Tracing the data-dependent gate of the guide's first `MyModule` on a hot
example succeeds, yet the compiled module returns `[[4]]` on a cold input where
the original returns the halving (denoting `[[2]]`): had every wrapper call
validated equivalence, this compilation could not have been returned. -/
theorem claim4_counterexample :
    (trace gateModule ex10).map (fun p => CModule.forward p.1 x4) =
      some (some (TValue.t2 [[⟨4, 1⟩]])) ∧
    NNModule.evalM gateModule x4 = some (TValue.t2 [[⟨4, 2⟩]]) ∧
    qDenote ⟨4, 1⟩ ≠ qDenote ⟨4, 2⟩ :=
  ⟨by decide, by decide, by norm_num [qDenote]⟩

/-- Claim C5: tracing examples come from the module's `irreps_in` unless the
module defines `_make_tracing_inputs`, in which case that method is used
instead (first two conjuncts); the compiler's selection depends only on the
first returned dict, so the count `n` is only a suggestion (third conjunct);
and when no example at all is available the trace compilation fails, at least
one example being the only requirement (fourth conjunct). -/
theorem claim5_tracing_inputs :
    (∀ (m : NNModule) (n : Nat) (f : Nat → List TInput),
      NNModule.mtiOf m = some f → tracingExamples m n = f n) ∧
    (∀ (m : NNModule) (n : Nat), NNModule.mtiOf m = none →
      tracingExamples m n = autoFromIrreps (NNModule.irrepsInOf m) n) ∧
    (∀ m1 m2 : NNModule, (tracingExamples m1 2).head? = (tracingExamples m2 2).head? →
      selectTracingInput m1 = selectTracingInput m2) ∧
    (∀ (pfx : JPath) (m : NNModule) (r : CModule × List JPath),
      selectTracingInput m = none →
      compileWith pfx (some CompileMode.trace) none m ≠ some r) := by
  refine ⟨?_, ?_, ?_, ?_⟩
  · intro m n f h
    simp [tracingExamples, h]
  · intro m n h
    simp [tracingExamples, h]
  · intro m1 m2 h
    simp only [selectTracingInput, h]
  · intro pfx m r hsel hcomp
    cases m with
    | mk md ir mt subs body =>
      simp only [compileWith] at hcomp
      split at hcomp
      · exact Option.noConfusion hcomp
      · rw [hsel] at hcomp
        split at hcomp
        · exact Option.noConfusion hcomp
        next hx => exact Option.noConfusion hx

/-- Claim C5 witness: `TracingModule` defines `_make_tracing_inputs`, and its
tracing examples are exactly what that method returns (for a suggested count of
three, three dicts come back, each mapping `forward` to its argument tuple). -/
theorem claim5_witness :
    NNModule.mtiOf tracingModule =
      some (fun n => List.replicate n [("forward", tracingModuleEx)]) ∧
    tracingExamples tracingModule 3 = List.replicate 3 [("forward", tracingModuleEx)] :=
  ⟨by rfl, claim5_tracing_inputs.1 tracingModule 3 _ (by rfl)⟩

/-- Claim C6: the layers the library builds are equivariant.  For the modelled
layers typed by `Irreps`: `Norm` commutes with the group action — the input is
acted on block-diagonally by the (orthogonal) per-irrep representation matrices
of `D_from_matrix`, and the output, being even scalars, carries the trivial
action, so the norms are unchanged; the full `TensorProduct` intertwines the
two input representations with their Kronecker product, the representation
`D_from_matrix` determines on the output. -/
theorem claim6_equivariance :
    (∀ (k : ℕ) (d : Fin k → ℕ) (Ds : ∀ i, Matrix (Fin (d i)) (Fin (d i)) ℚ)
       (x : ∀ i, Fin (d i) → ℚ), (∀ i, Matrix.transpose (Ds i) * Ds i = 1) →
       o3NormForward d (blockAction d Ds x) = o3NormForward d x) ∧
    (∀ (n m : ℕ) (D : Matrix (Fin n) (Fin n) ℚ) (E : Matrix (Fin m) (Fin m) ℚ)
       (x : Fin n → ℚ) (y : Fin m → ℚ),
       tpForward (D.mulVec x) (E.mulVec y) = (kronMat D E).mulVec (tpForward x y)) := by
  constructor
  · intro k d Ds x h
    funext i
    simp only [o3NormForward, blockAction]
    rw [dot_mulVec_self (Ds i) (x i) (h i)]
  · intro n m D E x y
    funext p
    obtain ⟨a, b⟩ := p
    simp only [tpForward, Matrix.mulVec, Matrix.dotProduct, kronMat]
    rw [Finset.sum_mul_sum, Fintype.sum_prod_type]
    refine Finset.sum_congr rfl (fun j _ => Finset.sum_congr rfl (fun k _ => by ring))

/-- Claim C6 witness: instantiating the equivariance of `Norm` at a concrete
orthogonal (identity) block action on a concrete one-block feature vector. -/
theorem claim6_witness :
    Matrix.transpose (1 : Matrix (Fin 3) (Fin 3) ℚ) * 1 = 1 ∧
    o3NormForward (fun _ : Fin 1 => 3)
        (blockAction (fun _ => 3) (fun _ => (1 : Matrix (Fin 3) (Fin 3) ℚ)) xW) =
      o3NormForward (fun _ : Fin 1 => 3) xW :=
  ⟨by simp,
   claim6_equivariance.1 1 (fun _ => 3) (fun _ => 1) xW (fun _ => by simp)⟩

/-- Claim C7: `compile` follows the module's own `@compile_mode` annotation
without overriding it (the compiled node's kind is exactly the annotation),
whereas `script` and `trace` force the top-level module to be scripted or
traced respectively, regardless of its annotation — while all three still
honour the annotations of every submodule. -/
theorem claim7_compile_modes :
    (∀ (m : NNModule) (c : CModule) (log : List JPath),
       compile m = some (c, log) → CModule.tag c = NNModule.modeOf m) ∧
    (∀ (m : NNModule) (c : CModule) (log : List JPath),
       script m = some (c, log) → CModule.tag c = some CompileMode.script) ∧
    (∀ (m : NNModule) (ex : TValue) (c : CModule) (log : List JPath),
       trace m ex = some (c, log) → CModule.tag c = some CompileMode.trace) ∧
    (∀ (m : NNModule) (c : CModule) (log : List JPath) (p : JPath) (s : NNModule),
       script m = some (c, log) → NNModule.atP p m = some s → p ≠ [] →
       ∃ cs, CModule.atP p c = some cs ∧ CModule.tag cs = NNModule.modeOf s) ∧
    (∀ (m : NNModule) (ex : TValue) (c : CModule) (log : List JPath) (p : JPath) (s : NNModule),
       trace m ex = some (c, log) → NNModule.atP p m = some s → p ≠ [] →
       ∃ cs, CModule.atP p c = some cs ∧ CModule.tag cs = NNModule.modeOf s) := by
  refine ⟨?_, ?_, ?_, ?_, ?_⟩
  · intro m c log h; exact compileWith_tag _ _ _ _ _ _ h
  · intro m c log h; exact compileWith_tag _ _ _ _ _ _ h
  · intro m ex c log h; exact compileWith_tag _ _ _ _ _ _ h
  · intro m c log p s hcomp hat hp
    obtain ⟨c2, l2, hatc, hcw, _⟩ := compileWith_atP p [] _ none m c log s hcomp hat hp
    exact ⟨c2, hatc, compileWith_tag _ _ _ _ _ _ hcw⟩
  · intro m ex c log p s hcomp hat hp
    obtain ⟨c2, l2, hatc, hcw, _⟩ := compileWith_atP p [] _ (some ex) m c log s hcomp hat hp
    exact ⟨c2, hatc, compileWith_tag _ _ _ _ _ _ hcw⟩

/-- Claim C7 witness: `compile` on the trace-annotated `TracingModule` yields a
traced module (the guide's `TopLevelTracedModule` output), its annotation not
overridden. -/
theorem claim7_witness :
    compile tracingModule = some (CModule.traced [] (Body.op gatherSumOp), [[]]) ∧
    CModule.tag (CModule.traced [] (Body.op gatherSumOp)) = NNModule.modeOf tracingModule :=
  ⟨by rfl,
   claim7_compile_modes.1 tracingModule (CModule.traced [] (Body.op gatherSumOp)) [[]] (by rfl)⟩

/-- Claim C8: `AnotherModule`, traced with a batch-3 example, generalises over
the leading batch dimension but not the final feature dimension: on the
all-zero input of shape `(2, irreps.dim)` it returns the all-`3.0` output of
shape `(2, 3)` (no row norm exceeds the `0.1` threshold, so the scripted
submodule returns the whole norm), while an input whose final dimension is
changed from the traced `irreps.dim = 5` to `4` is rejected. -/
theorem claim8_trace_batch :
    (trace anotherModule exBatch3).map
      (fun p => (CModule.forward p.1 (zerosT 2 5), CModule.forward p.1 (zerosT 2 4))) =
    some (some (TValue.t2 [[⟨3, 1⟩, ⟨3, 1⟩, ⟨3, 1⟩], [⟨3, 1⟩, ⟨3, 1⟩, ⟨3, 1⟩]]), none) := by
  decide

/-- Claim C9: with its default `strict_shapes = true`, `assert_auto_jitable`
performs exactly the checks of `strict_shapes = false` plus the rejection
check on the input with `x.shape[-1]` changed (first conjunct, for every
module); `TracingModule`, whose final dimension is not an architecture
constant, passes with `strict_shapes = false` but fails the strict variant,
which is therefore required to be disabled for it; `AnotherModule` passes the
full strict check. -/
theorem claim9_strict_shapes :
    (∀ m : NNModule,
      assert_auto_jitable m true = (assert_auto_jitable m false && rejectsAltered m)) ∧
    assert_auto_jitable tracingModule false = true ∧
    assert_auto_jitable tracingModule true = false ∧
    assert_auto_jitable anotherModule true = true := by
  refine ⟨?_, by decide, by decide, by decide⟩
  intro m
  simp only [assert_auto_jitable]
  cases hsel : selectTracingInput m with
  | none => simp
  | some ex =>
    cases htr : trace m ex with
    | none => simp [htr]
    | some pr =>
      obtain ⟨c, l⟩ := pr
      simp only [htr]
      cases decide (CModule.forward c ex = NNModule.evalM m ex) <;>
        cases rejectsAltered m <;> rfl
